import Mathlib

/-!
Verification of the notification system's task-queue and resilience core:
a shallow embedding of `queue_manager.py` (task queue, worker loop,
statistics, retention sweep) and of the retry / circuit-breaker layer of
`projetnotif.py` (`RetryMixin.retry`, `add_circuit_breaker`,
`ConfigMeta.get_option` with the `RetryConfig` / `CircuitBreakerConfig`
registries), together with proofs of the specified properties.

Python floats (timestamps, delays) are modelled as rationals, Python ints
as `Nat`/`Int`, Python `None` as `Option.none`, and a raised exception as
an `Except.error` carrying the stringified exception.
-/

namespace ProjetNotif

/-! ### Configuration registries (`ConfigMeta.get_option`)

`ConfigMeta.get_option(key, default)` returns
`CONFIG_SOURCE.get(namespace, {}).get(key, cls.defaults.get(key, default))`:
the stored value if one was written with `set_option`, otherwise the
class-level default, otherwise the caller-supplied fallback. -/

/-- `get_option` resolution: stored value from `CONFIG_SOURCE`, then the
class `defaults` entry, then the caller-supplied fallback. -/
def getOption {α : Type} (stored dflt : Option α) (fallback : α) : α :=
  stored.getD (dflt.getD fallback)

/-- The `"retry"` slice of `CONFIG_SOURCE`: the values written by
`RetryConfig.set_option`, per key (`none` = never written). -/
structure RetryStore where
  attempts : Option Nat
  delay : Option ℚ
  backoff : Option ℚ
deriving DecidableEq, Repr

/-- A `RetryStore` with no stored values (no `set_option` was performed). -/
def RetryStore.empty : RetryStore := ⟨none, none, none⟩

/-- `RetryConfig.defaults = {"attempts": 3, "delay": 1, "backoff": 2}`. -/
def retryDefaultAttempts : Option Nat := some 3

def retryDefaultDelay : Option ℚ := some 1

def retryDefaultBackoff : Option ℚ := some 2

/-- Effective `attempts` in `RetryMixin.retry`:
`retry_config.get_option("attempts", attempts)`. -/
def effAttempts (st : RetryStore) (caller : Nat) : Nat :=
  getOption st.attempts retryDefaultAttempts caller

/-- Effective `delay` in `RetryMixin.retry`. -/
def effDelay (st : RetryStore) (caller : ℚ) : ℚ :=
  getOption st.delay retryDefaultDelay caller

/-- Effective `backoff` in `RetryMixin.retry`. -/
def effBackoff (st : RetryStore) (caller : ℚ) : ℚ :=
  getOption st.backoff retryDefaultBackoff caller

/-! ### `RetryMixin.retry`

The operation is modelled as `ops : Nat → Except String V`, giving the
outcome of its `i`-th invocation (0-indexed).  A run records the final
outcome, the number of invocations, and the list of sleep durations in
order.  `result = .error none` models `raise last_exc` with
`last_exc = None` (only reachable when the attempt budget is 0). -/

/-- Trace of one `retry` execution: outcome, number of invocations of the
wrapped operation, and the `time.sleep` durations performed, in order. -/
structure RetryTrace (V : Type) where
  result : Except (Option String) V
  calls : Nat
  sleeps : List ℚ
deriving Repr

/-- The `for i in range(attempts)` loop of `RetryMixin.retry`, with `i` the
current index, `remaining` the attempts left, and `last` the last exception
seen.  On failure of attempt `i`, a sleep of `delay * backoff ^ i` happens
only when further attempts remain (`if i < attempts - 1`). -/
def retryGo {V : Type} (ops : Nat → Except String V) (delay backoff : ℚ) :
    Nat → Nat → Option String → RetryTrace V
  | _, 0, last => ⟨.error last, 0, []⟩
  | i, r + 1, _ =>
    match ops i with
    | .ok v => ⟨.ok v, 1, []⟩
    | .error e =>
      let rest := retryGo ops delay backoff (i + 1) r (some e)
      ⟨rest.result, rest.calls + 1,
        if 0 < r then (delay * backoff ^ i) :: rest.sleeps else rest.sleeps⟩

/-- `RetryMixin.retry(func, attempts, delay, backoff)`: resolves the
effective parameters through `RetryConfig` (which is always present in
`REGISTRY["configs"]`, having been registered by `ConfigMeta.__new__`)
and runs the attempt loop. -/
def retry {V : Type} (ops : Nat → Except String V) (st : RetryStore)
    (attempts : Nat) (delay backoff : ℚ) : RetryTrace V :=
  retryGo ops (effDelay st delay) (effBackoff st backoff) 0
    (effAttempts st attempts) none

/-- An operation that fails on its first two invocations and then
succeeds, used to witness the retry claims. -/
def opsFailTwiceW : Nat → Except String Nat :=
  fun i => if i < 2 then .error "boom" else .ok 42

/-- An operation that always fails, used to witness the retry claims. -/
def opsAlwaysFailW : Nat → Except String Nat := fun _ => .error "boom"

/-! ### Circuit breaker (`add_circuit_breaker`)

`add_circuit_breaker` resolves `threshold` and `cooldown` when the class
is decorated (from the class attributes, then `CircuitBreakerConfig`
via `get_option`, then the literal fallbacks 3 / 5) and installs
`wrapped_envoyer`, whose per-instance state is
`{"failures": 0, "open": False, "last_failure": 0.0}` initially. -/

/-- The `"circuit_breaker"` slice of `CONFIG_SOURCE`: values written by
`CircuitBreakerConfig.set_option`, per key (`none` = never written). -/
structure CBStore where
  threshold : Option Nat
  cooldown : Option ℚ
deriving DecidableEq, Repr

/-- A `CBStore` with no stored values (no `set_option` was performed). -/
def CBStore.empty : CBStore := ⟨none, none⟩

/-- `CircuitBreakerConfig.set_option("threshold", v)`. -/
def CBStore.setThreshold (st : CBStore) (v : Nat) : CBStore :=
  { st with threshold := some v }

/-- `CircuitBreakerConfig.defaults = {"threshold": 3, "cooldown": 5}`. -/
def cbDefaultThreshold : Option Nat := some 3

def cbDefaultCooldown : Option ℚ := some 5

/-- The `threshold` value resolved by `add_circuit_breaker` at decoration
time: `getattr(cls, "circuit_breaker_threshold", None)` refined by
`circuit_config.get_option("threshold", threshold)`, then defaulted to 3
if still `None`.  The intermediate value is an `Option` because the
Python variable may hold `None`. -/
def cbDecoThreshold (st : CBStore) (clsT : Option Nat) : Nat :=
  (getOption (st.threshold.map some) (cbDefaultThreshold.map some) clsT).getD 3

/-- The `cooldown` value resolved by `add_circuit_breaker` at decoration
time, analogously to `cbDecoThreshold`. -/
def cbDecoCooldown (st : CBStore) (clsC : Option ℚ) : ℚ :=
  (getOption (st.cooldown.map some) (cbDefaultCooldown.map some) clsC).getD 5

/-- The values captured in the `wrapped_envoyer` closure when
`add_circuit_breaker` decorates a class. -/
structure DecoratedCB where
  threshold : Nat
  cooldown : ℚ
deriving DecidableEq, Repr

/-- `add_circuit_breaker(cls)`: resolves the tunables once, at decoration
time, from the config visible at that moment. -/
def addCircuitBreaker (st : CBStore) (clsT : Option Nat) (clsC : Option ℚ) :
    DecoratedCB :=
  ⟨cbDecoThreshold st clsT, cbDecoCooldown st clsC⟩

/-- The `_circuit_breaker_state` dictionary of a notifier instance. -/
structure CBState where
  failures : Nat
  isOpen : Bool
  last_failure : ℚ
deriving DecidableEq, Repr

/-- The default state used when `_circuit_breaker_state` is absent:
`{"failures": 0, "open": False, "last_failure": 0.0}`. -/
def CBState.initial : CBState := ⟨0, false, 0⟩

/-- Outcome of one `wrapped_envoyer` call: the short-circuit sentinel
(`return False` without invoking), a normal return, or a re-raised
exception. -/
inductive CBResult (V : Type) where
  | shortCircuit
  | ok (v : V)
  | raised (e : String)
deriving DecidableEq, Repr

/-- One `wrapped_envoyer` call: its outcome, the resulting
`_circuit_breaker_state`, and whether the wrapped operation was invoked. -/
structure CBCall (V : Type) where
  result : CBResult V
  state : CBState
  invoked : Bool
deriving DecidableEq, Repr

/-- The body of `wrapped_envoyer`: short-circuits while the circuit is
open and within `cooldown` of the last failure; lazily closes the circuit
(resetting `failures`) once the cooldown has elapsed; otherwise invokes
the wrapped operation, resetting `failures` on success, and on failure
incrementing `failures`, stamping `last_failure`, opening the circuit at
`threshold` failures, and re-raising. -/
def cbCall {V : Type} (threshold : Nat) (cooldown : ℚ) (s : CBState)
    (now : ℚ) (op : Except String V) : CBCall V :=
  if s.isOpen = true ∧ now - s.last_failure < cooldown then
    ⟨.shortCircuit, s, false⟩
  else
    let s1 := if s.isOpen then { s with isOpen := false, failures := 0 } else s
    match op with
    | .ok v => ⟨.ok v, { s1 with failures := 0 }, true⟩
    | .error e =>
      let f := s1.failures + 1
      ⟨.raised e,
       { s1 with failures := f, last_failure := now,
                 isOpen := if threshold ≤ f then true else s1.isOpen }, true⟩

/-- A call through the decorated `envoyer`.  `runtimeStore` is the
`CONFIG_SOURCE` state at call time; the closure body never reads it (it
only uses the values captured at decoration time). -/
def wrappedEnvoyer {V : Type} (deco : DecoratedCB) (_runtimeStore : CBStore)
    (s : CBState) (now : ℚ) (op : Except String V) : CBCall V :=
  cbCall deco.threshold deco.cooldown s now op

/-- Modelled from the spec's words for comparison (C4 claims this
behaviour): a call whose effective threshold and cooldown are the values
*currently* stored in `CircuitBreakerConfig` at call time. -/
def wrappedEnvoyerLive {V : Type} (runtimeStore : CBStore)
    (clsT : Option Nat) (clsC : Option ℚ) (s : CBState) (now : ℚ)
    (op : Except String V) : CBCall V :=
  cbCall (cbDecoThreshold runtimeStore clsT) (cbDecoCooldown runtimeStore clsC)
    s now op

end ProjetNotif

namespace QueueManager

/-! ### Task model (`queue_manager.py`)

`uuid.uuid4()` is modelled by a fresh-id counter (ids are never reused),
timestamps by rationals, the task `data` payload and the processor
`result` by opaque strings (`result = none` models a processor that
returned `None`, indistinguishable in Python from the unset field). -/

/-- `TaskStatus`. -/
inductive TaskStatus where
  | pending
  | processing
  | completed
  | failed
deriving DecidableEq, Repr

/-- A status is terminal when it is `COMPLETED` or `FAILED`. -/
def TaskStatus.isTerminal : TaskStatus → Bool
  | .completed => true
  | .failed => true
  | _ => false

/-- `NotificationTask`. -/
structure Task where
  id : Nat
  type : String
  data : String
  status : TaskStatus
  created_at : ℚ
  started_at : Option ℚ
  completed_at : Option ℚ
  error : Option String
  result : Option String
deriving DecidableEq, Repr

/-- The full state of a `QueueManager` instance: the `_tasks` registry in
insertion order, the `_queue` FIFO of task ids, the fresh-id source, the
`_running` flag, whether `_processor` is set, the number of spawned
worker threads (`len(self._workers)`), `_num_workers`, each worker's
currently claimed task id, and the `_stats` counters. -/
structure QMState where
  tasks : List Task
  fifo : List Nat
  nextId : Nat
  running : Bool
  hasProcessor : Bool
  workerCount : Nat
  numWorkers : Nat
  held : List (Option Nat)
  total_enqueued : Int
  total_processed : Int
  total_failed : Int
  current_queue_size : Int
deriving DecidableEq, Repr

/-- `QueueManager(num_workers)`: fresh instance. -/
def QMState.init (n : Nat) : QMState :=
  ⟨[], [], 0, false, false, 0, n, List.replicate n none, 0, 0, 0, 0⟩

/-- Registry lookup (`self._tasks.get(task_id)`). -/
def findTask (tasks : List Task) (id : Nat) : Option Task :=
  tasks.find? (fun t => t.id = id)

/-- In-place update of the task with the given id (mutation of the shared
`NotificationTask` object under `_tasks_lock`). -/
def updateTask (tasks : List Task) (id : Nat) (f : Task → Task) : List Task :=
  tasks.map (fun t => if t.id = id then f t else t)

/-- `enqueue(task_type, data)` at clock value `now`: a fresh PENDING task
is registered, its id pushed onto the FIFO and returned;
`total_enqueued` and `current_queue_size` are incremented. -/
def enqueueOp (s : QMState) (ty data : String) (now : ℚ) : QMState × Nat :=
  ({ s with
      tasks := s.tasks ++
        [⟨s.nextId, ty, data, .pending, now, none, none, none, none⟩],
      fifo := s.fifo ++ [s.nextId],
      nextId := s.nextId + 1,
      total_enqueued := s.total_enqueued + 1,
      current_queue_size := s.current_queue_size + 1 },
   s.nextId)

/-- The PENDING→PROCESSING field update of `_worker_loop` step 3. -/
def claimTask (now : ℚ) (t : Task) : Task :=
  { t with status := .processing, started_at := some now }

/-- The PROCESSING→COMPLETED field update of `_worker_loop` step 5. -/
def completeTask (now : ℚ) (r : Option String) (t : Task) : Task :=
  { t with status := .completed, completed_at := some now, result := r }

/-- The PROCESSING→FAILED field update of `_worker_loop` step 6. -/
def failTask (now : ℚ) (e : String) (t : Task) : Task :=
  { t with status := .failed, completed_at := some now, error := some e }

/-- One successful `self._queue.get()` by worker `w` followed by the
PENDING→PROCESSING transition of `_worker_loop` (steps 1–3): the worker
pops the FIFO head; a missing task is discarded (`if not task: continue`),
otherwise the task is stamped `started_at` and marked PROCESSING and the
worker holds it.  A worker only blocks on the FIFO while the loop runs
and it has no task in hand. -/
def claimOp (s : QMState) (w : Nat) (now : ℚ) : QMState :=
  if s.running = true ∧ s.held[w]? = some none then
    match s.fifo with
    | [] => s
    | id :: rest =>
      match findTask s.tasks id with
      | none => { s with fifo := rest }
      | some _ =>
        { s with
            fifo := rest,
            tasks := updateTask s.tasks id (claimTask now),
            held := s.held.set w (some id) }
  else s

/-- The processor invocation and terminal transition of `_worker_loop`
(steps 4–6) by worker `w` at clock value `now`: on a normal return the
held task becomes COMPLETED with its `result` stored and
`total_processed` incremented; on an exception it becomes FAILED with the
stringified error stored and `total_failed` incremented; either way
`completed_at` is stamped, `current_queue_size` is decremented, and the
worker releases the task and continues. -/
def finishOp (s : QMState) (w : Nat) (outcome : Except String (Option String))
    (now : ℚ) : QMState :=
  match s.held[w]? with
  | some (some id) =>
    match outcome with
    | .ok r =>
      { s with
          tasks := updateTask s.tasks id (completeTask now r),
          held := s.held.set w none,
          total_processed := s.total_processed + 1,
          current_queue_size := s.current_queue_size - 1 }
    | .error e =>
      { s with
          tasks := updateTask s.tasks id (failTask now e),
          held := s.held.set w none,
          total_failed := s.total_failed + 1,
          current_queue_size := s.current_queue_size - 1 }
  | _ => s

/-- The removal condition of `clear_completed`:
`task.status in (COMPLETED, FAILED) and task.completed_at and
task.completed_at < cutoff_time`.  A `completed_at` of exactly `0.0` is
falsy in Python and blocks removal. -/
def removable (cutoff : ℚ) (t : Task) : Bool :=
  (decide (t.status = .completed) || decide (t.status = .failed)) &&
  (match t.completed_at with
   | some c => decide (¬c = 0) && decide (c < cutoff)
   | none => false)

/-- `clear_completed(older_than_hours)` at clock value `now`: removes the
removable tasks and returns the count removed. -/
def clearCompletedOp (s : QMState) (olderThanHours now : ℚ) : QMState × Nat :=
  let cutoff := now - olderThanHours * 3600
  ({ s with tasks := s.tasks.filter (fun t => !removable cutoff t) },
   (s.tasks.filter (removable cutoff)).length)

/-- `start()`: returns immediately when already running; raises
`ValueError` when no processor is set; otherwise flips `_running` and
spawns `num_workers` workers. -/
def startQM (s : QMState) : Except String QMState :=
  if s.running then .ok s
  else if s.hasProcessor = false then
    .error "Un processeur doit être défini avant de démarrer"
  else .ok { s with running := true,
                    workerCount := s.workerCount + s.numWorkers }

/-- `stop(timeout)`: returns immediately when not running; otherwise
clears `_running` and the worker list. -/
def stopQM (s : QMState) : QMState :=
  if s.running then { s with running := false, workerCount := 0 } else s

/-- The operations that mutate a `QueueManager`, used to describe the
reachable states.  A raising `start()` leaves the state unchanged (the
method raises before mutating anything). -/
inductive QOp where
  | enqueue (ty data : String) (now : ℚ)
  | claim (w : Nat) (now : ℚ)
  | finish (w : Nat) (outcome : Except String (Option String)) (now : ℚ)
  | clearCompleted (olderThanHours now : ℚ)
  | setProcessor
  | start
  | stop

/-- One operation applied to the state. -/
def step (s : QMState) : QOp → QMState
  | .enqueue ty d now => (enqueueOp s ty d now).1
  | .claim w now => claimOp s w now
  | .finish w o now => finishOp s w o now
  | .clearCompleted oh now => (clearCompletedOp s oh now).1
  | .setProcessor => { s with hasProcessor := true }
  | .start => (startQM s).toOption.getD s
  | .stop => stopQM s

/-- The state after a sequence of operations on a fresh
`QueueManager(n)`. -/
def run (n : Nat) (ops : List QOp) : QMState :=
  ops.foldl step (QMState.init n)

/-- A concrete state with worker 0 holding task 0, used to witness C5. -/
def heldStateW : QMState :=
  ⟨[⟨0, "meteo", "p", .processing, 1, some 2, none, none, none⟩],
   [], 1, true, true, 2, 2, [some 0, none], 1, 0, 0, 1⟩

/-- The removal condition in C8's words: status COMPLETED or FAILED and
`completed_at` older than the cutoff (for comparison with the code's
`removable`, which additionally requires a truthy — nonzero —
`completed_at`; the two agree on every positive timestamp that a real
clock produces). -/
def specRemovable (cutoff : ℚ) (t : Task) : Bool :=
  t.status.isTerminal &&
  (match t.completed_at with
   | some c => decide (c < cutoff)
   | none => false)

/-- A concrete queue state with one old completed task and one pending
task, used to witness C8. -/
def clearStateW : QMState :=
  ⟨[⟨0, "meteo", "d", .completed, 1, some 2, some 3, none, some "r"⟩,
    ⟨1, "securite", "d", .pending, 10, none, none, none, none⟩],
   [1], 2, true, true, 2, 2, [none, none], 2, 1, 0, 1⟩

/-! ### The task record invariant and its preservation -/

/-- The per-record invariant of C7: `error` present iff FAILED, `result`
present only when COMPLETED, `started_at` present iff the task has left
PENDING, and `completed_at` present iff the task is terminal. -/
def recordInv (t : Task) : Prop :=
  (t.error ≠ none ↔ t.status = .failed) ∧
  (t.result ≠ none → t.status = .completed) ∧
  (t.started_at ≠ none ↔ t.status ≠ .pending) ∧
  (t.completed_at ≠ none ↔ t.status.isTerminal = true)

/-- The inductive invariant of a `QueueManager` state: every record
satisfies `recordInv`; registered ids are below the fresh-id source and
pairwise distinct; every FIFO entry denotes a PENDING task and the FIFO
has no duplicates; every claimed id denotes a PROCESSING task and no two
workers hold the same id. -/
structure Inv (s : QMState) : Prop where
  taskRec : ∀ t ∈ s.tasks, recordInv t
  idsLt : ∀ t ∈ s.tasks, t.id < s.nextId
  idsNodup : (s.tasks.map Task.id).Nodup
  fifoPending : ∀ i ∈ s.fifo, ∃ t ∈ s.tasks, t.id = i ∧ t.status = .pending
  fifoNodup : s.fifo.Nodup
  heldProc : ∀ (w i : Nat), s.held[w]? = some (some i) →
    ∃ t ∈ s.tasks, t.id = i ∧ t.status = .processing
  heldNodup : ∀ (w w' i : Nat), w ≠ w' → s.held[w]? = some (some i) →
    s.held[w']? ≠ some (some i)

/-- A concrete operation sequence driving one task to FAILED, used to
witness C7. -/
def opsW : List QOp :=
  [.setProcessor, .start, .enqueue "meteo" "p" 1, .claim 0 2,
   .finish 0 (.error "boom") 3]

end QueueManager

namespace ProjetNotif

/-! ### Basic facts about the retry loop -/

theorem retryGo_zero {V : Type} (ops : Nat → Except String V) (d b : ℚ)
    (i : Nat) (last : Option String) :
    retryGo ops d b i 0 last = ⟨.error last, 0, []⟩ := rfl

theorem retryGo_ok {V : Type} {ops : Nat → Except String V} {d b : ℚ}
    {i : Nat} {v : V} (r : Nat) (last : Option String) (h : ops i = .ok v) :
    retryGo ops d b i (r + 1) last = ⟨.ok v, 1, []⟩ := by
  simp [retryGo, h]

theorem retryGo_err {V : Type} {ops : Nat → Except String V} {d b : ℚ}
    {i : Nat} {e : String} (r : Nat) (last : Option String)
    (h : ops i = .error e) :
    retryGo ops d b i (r + 1) last =
      ⟨(retryGo ops d b (i + 1) r (some e)).result,
       (retryGo ops d b (i + 1) r (some e)).calls + 1,
       if 0 < r then
         (d * b ^ i) :: (retryGo ops d b (i + 1) r (some e)).sleeps
       else (retryGo ops d b (i + 1) r (some e)).sleeps⟩ := by
  simp [retryGo, h]

theorem retryGo_calls_pos {V : Type} (ops : Nat → Except String V) (d b : ℚ)
    (i r : Nat) (last : Option String) :
    0 < (retryGo ops d b i (r + 1) last).calls := by
  cases h : ops i with
  | ok v => simp [retryGo_ok r last h]
  | error e => simp [retryGo_err r last h]

/-- The sleeps performed by the retry loop started at index `i` are exactly
`d * b ^ (i + j)` for `j` ranging over all but the last invocation. -/
theorem retryGo_sleeps_eq {V : Type} (ops : Nat → Except String V) (d b : ℚ) :
    ∀ (r i : Nat) (last : Option String),
      (retryGo ops d b i r last).sleeps =
        (List.range ((retryGo ops d b i r last).calls - 1)).map
          (fun j => d * b ^ (i + j)) := by
  intro r
  induction r with
  | zero => intro i last; simp [retryGo_zero]
  | succ r ih =>
    intro i last
    cases h : ops i with
    | ok v => simp [retryGo_ok r last h]
    | error e =>
      rw [retryGo_err r last h]
      cases r with
      | zero => simp [retryGo_zero]
      | succ r' =>
        have hpos : 0 < (retryGo ops d b (i + 1) (r' + 1) (some e)).calls :=
          retryGo_calls_pos ops d b (i + 1) r' (some e)
        obtain ⟨m, hm⟩ : ∃ m,
            (retryGo ops d b (i + 1) (r' + 1) (some e)).calls = m + 1 :=
          ⟨(retryGo ops d b (i + 1) (r' + 1) (some e)).calls - 1, by omega⟩
        simp only [Nat.succ_pos, if_pos, hm, ih (i + 1) (some e)]
        simp only [Nat.add_sub_cancel, List.range_succ_eq_map, List.map_cons,
          List.map_map]
        congr 1
        apply List.map_congr_left
        intro a _
        simp only [Function.comp_apply, Nat.succ_eq_add_one, pow_succ, pow_add]
        ring

/-! ### Claim theorems about `RetryMixin.retry` -/

/-- C2: with effective `attempts = 3` and `base_delay = 0`, an operation
that fails twice then succeeds is invoked exactly 3 times and its success
value is returned; an operation that always fails is invoked exactly 3
times and the last exception it raised is re-raised; with effective
`attempts = 1` the operation is invoked exactly once with no sleep. -/
theorem retry_invocation_counts {V : Type} (ops : Nat → Except String V)
    (st : RetryStore) (a : Nat) (d b : ℚ)
    (ha : effAttempts st a = 3) (hd : effDelay st d = 0) :
    (∀ e0 e1 v, ops 0 = .error e0 → ops 1 = .error e1 → ops 2 = .ok v →
      (retry ops st a d b).result = .ok v ∧ (retry ops st a d b).calls = 3) ∧
    (∀ e0 e1 e2, ops 0 = .error e0 → ops 1 = .error e1 → ops 2 = .error e2 →
      (retry ops st a d b).result = .error (some e2) ∧
      (retry ops st a d b).calls = 3) ∧
    (∀ (st1 : RetryStore) (a1 : Nat), effAttempts st1 a1 = 1 →
      (retry ops st1 a1 d b).calls = 1 ∧
      (retry ops st1 a1 d b).sleeps = []) := by
  refine ⟨?_, ?_, ?_⟩
  · intro e0 e1 v h0 h1 h2
    simp [retry, ha, hd, retryGo, h0, h1, h2]
  · intro e0 e1 e2 h0 h1 h2
    simp [retry, ha, hd, retryGo, h0, h1, h2]
  · intro st1 a1 h1
    cases hc : ops 0 with
    | ok v => simp [retry, h1, retryGo, hc]
    | error e => simp [retry, h1, retryGo, hc]

/-- Witness for C2 at a concrete operation and configuration. -/
theorem retry_invocation_counts_witness :
    (retry opsFailTwiceW ⟨none, some 0, none⟩ 7 5 9).result = .ok 42 ∧
    (retry opsFailTwiceW ⟨none, some 0, none⟩ 7 5 9).calls = 3 :=
  (retry_invocation_counts opsFailTwiceW ⟨none, some 0, none⟩ 7 5 9
    (by decide) rfl).1 "boom" "boom" 42 rfl rfl rfl

/-- C3: in every `retry` execution with effective parameters
`(attempts, base_delay, backoff)`, the sleeps performed are exactly
`base_delay * backoff ^ (i - 1)` before attempt `i` (0-indexed), for each
reached `i > 0`, and no sleep follows the final invocation
(the number of sleeps is one less than the number of invocations). -/
theorem retry_backoff_schedule {V : Type} (ops : Nat → Except String V)
    (st : RetryStore) (a : Nat) (d b : ℚ) :
    (retry ops st a d b).sleeps =
      (List.range ((retry ops st a d b).calls - 1)).map
        (fun j => effDelay st d * effBackoff st b ^ j) ∧
    (retry ops st a d b).sleeps.length = (retry ops st a d b).calls - 1 ∧
    (∀ i, 0 < i → i < (retry ops st a d b).calls →
      (retry ops st a d b).sleeps[i - 1]? =
        some (effDelay st d * effBackoff st b ^ (i - 1))) := by
  have hs := retryGo_sleeps_eq ops (effDelay st d) (effBackoff st b)
    (effAttempts st a) 0 none
  simp only [Nat.zero_add] at hs
  refine ⟨hs, ?_, ?_⟩
  · simp only [retry] at hs ⊢
    rw [hs]
    simp
  · intro i hi hic
    simp only [retry] at hs hic ⊢
    rw [hs]
    rw [List.getElem?_map, List.getElem?_range (by omega)]
    rfl

/-- Witness for C3: with the default configuration (3 attempts, delay 1,
backoff 2) and an always-failing operation, the sleep before the third
attempt is `1 * 2 ^ 1`. -/
theorem retry_backoff_schedule_witness :
    (retry opsAlwaysFailW RetryStore.empty 5 7 9).sleeps[1]? =
      some (effDelay RetryStore.empty 7 * effBackoff RetryStore.empty 9 ^ 1) :=
  (retry_backoff_schedule opsAlwaysFailW RetryStore.empty 5 7 9).2.2 2
    (by decide) (by decide)

/-- C10: when nothing has been written to `CONFIG_SOURCE` for the
`"retry"` namespace, `get_option` falls back to `RetryConfig.defaults`
before the caller-supplied fallback, so the effective attempts, delay and
backoff are the class defaults `(3, 1, 2)` regardless of the arguments
the caller passed to `RetryMixin.retry`. -/
theorem retry_defaults_shadow_caller_args {V : Type}
    (ops : Nat → Except String V) (a : Nat) (d b : ℚ) :
    effAttempts RetryStore.empty a = 3 ∧
    effDelay RetryStore.empty d = 1 ∧
    effBackoff RetryStore.empty b = 2 ∧
    retry ops RetryStore.empty a d b = retry ops RetryStore.empty 3 1 2 :=
  ⟨rfl, rfl, rfl, rfl⟩

/-! ### Claim theorems about the circuit breaker -/

/-- C1: with `threshold = 3`, three consecutive failures open the
circuit; while open and within `cooldown` of the last failure a call
returns the short-circuit sentinel without invoking the wrapped
operation; once the cooldown has elapsed the next call closes the circuit
and attempts the operation normally, and a successful call resets
`failures` to 0. -/
theorem circuit_breaker_state_machine {V : Type} (c t1 t2 t3 t4 t5 : ℚ)
    (e1 e2 e3 : String) (v : V) (op4 : Except String V) :
    cbCall 3 c CBState.initial t1 (.error e1 : Except String V) =
      ⟨.raised e1, ⟨1, false, t1⟩, true⟩ ∧
    cbCall 3 c ⟨1, false, t1⟩ t2 (.error e2 : Except String V) =
      ⟨.raised e2, ⟨2, false, t2⟩, true⟩ ∧
    cbCall 3 c ⟨2, false, t2⟩ t3 (.error e3 : Except String V) =
      ⟨.raised e3, ⟨3, true, t3⟩, true⟩ ∧
    (t4 - t3 < c →
      cbCall 3 c ⟨3, true, t3⟩ t4 op4 = ⟨.shortCircuit, ⟨3, true, t3⟩, false⟩) ∧
    (c ≤ t5 - t3 →
      (cbCall 3 c ⟨3, true, t3⟩ t5 op4).invoked = true ∧
      cbCall 3 c ⟨3, true, t3⟩ t5 (.ok v : Except String V) =
        ⟨.ok v, ⟨0, false, t3⟩, true⟩) := by
  refine ⟨?_, ?_, ?_, ?_, ?_⟩
  · simp [cbCall, CBState.initial]
  · simp [cbCall]
  · simp [cbCall]
  · intro h
    simp [cbCall, h]
  · intro h
    have h' : ¬(t5 - t3 < c) := not_lt.mpr h
    constructor
    · cases op4 with
      | ok v => simp [cbCall, h']
      | error e => simp [cbCall, h']
    · simp [cbCall, h']

/-- Witness for C1 at concrete times (`cooldown = 5`, last failure at
time 3, a short-circuited call at time 4, a successful call at 100). -/
theorem circuit_breaker_state_machine_witness :
    cbCall 3 5 ⟨3, true, 3⟩ 4 (.error "x" : Except String Bool) =
      ⟨.shortCircuit, ⟨3, true, 3⟩, false⟩ ∧
    cbCall 3 5 ⟨3, true, 3⟩ 100 (.ok true : Except String Bool) =
      ⟨.ok true, ⟨0, false, 3⟩, true⟩ :=
  ⟨(circuit_breaker_state_machine 5 1 2 3 4 100 "a" "b" "c" true
      (.error "x")).2.2.2.1 (by norm_num),
   ((circuit_breaker_state_machine 5 1 2 3 4 100 "a" "b" "c" true
      (.error "x")).2.2.2.2 (by norm_num)).2⟩

/-- C4 counterexample: the tunables are captured at decoration time, not
read on every call.  Decorate under an empty config, then store
`threshold = 1`; a first failure does not open the circuit (captured
threshold 3), whereas the claimed live-read behaviour (threshold 1) would
open it. -/
theorem cb_tunables_not_live_counterexample :
    (wrappedEnvoyer (addCircuitBreaker CBStore.empty none none)
      (CBStore.empty.setThreshold 1) CBState.initial 10
      (.error "boom" : Except String Bool)).state.isOpen = false ∧
    (wrappedEnvoyerLive (CBStore.empty.setThreshold 1) none none
      CBState.initial 10
      (.error "boom" : Except String Bool)).state.isOpen = true := by
  constructor
  · rfl
  · rfl

/-- C4 amended: the effective threshold and cooldown of a decorated
`envoyer` are the values resolved from `CircuitBreakerConfig` once, at
decoration time; the behaviour of a call does not depend on the config
stored at call time, so a `set_option` performed after decoration does
not change the behaviour of an already-decorated notifier.  With nothing
stored at decoration time the captured values are the defaults `(3, 5)`. -/
theorem cb_tunables_captured_at_decoration {V : Type}
    (st0 st1 st2 : CBStore) (clsT : Option Nat) (clsC : Option ℚ)
    (s : CBState) (now : ℚ) (op : Except String V) :
    wrappedEnvoyer (addCircuitBreaker st0 clsT clsC) st1 s now op =
      cbCall (cbDecoThreshold st0 clsT) (cbDecoCooldown st0 clsC) s now op ∧
    wrappedEnvoyer (addCircuitBreaker st0 clsT clsC) st1 s now op =
      wrappedEnvoyer (addCircuitBreaker st0 clsT clsC) st2 s now op ∧
    addCircuitBreaker CBStore.empty none none = ⟨3, 5⟩ :=
  ⟨rfl, rfl, rfl⟩

end ProjetNotif

namespace QueueManager

/-! ### Registry lookup lemmas -/

theorem findTask_mem {l : List Task} {id : Nat} {t : Task}
    (h : findTask l id = some t) : t ∈ l ∧ t.id = id := by
  refine ⟨List.mem_of_find?_eq_some h, ?_⟩
  have := List.find?_some h
  simpa using this

theorem findTask_eq_none {l : List Task} {id : Nat}
    (h : ∀ u ∈ l, u.id ≠ id) : findTask l id = none := by
  rw [findTask, List.find?_eq_none]
  intro u hu
  simpa using h u hu

theorem findTask_append_left {l : List Task} (l' : List Task) {id : Nat}
    {t : Task} (h : findTask l id = some t) :
    findTask (l ++ l') id = some t := by
  unfold findTask at h ⊢
  rw [List.find?_append, h]
  rfl

theorem findTask_append_right {l : List Task} {t : Task}
    (h : ∀ u ∈ l, u.id ≠ t.id) : findTask (l ++ [t]) t.id = some t := by
  have h0 : findTask l t.id = none := findTask_eq_none h
  unfold findTask at h0 ⊢
  rw [List.find?_append, h0]
  simp [List.find?]

theorem findTask_of_mem_nodup {l : List Task} {t : Task}
    (hnd : (l.map Task.id).Nodup) (ht : t ∈ l) : findTask l t.id = some t := by
  induction l with
  | nil => cases ht
  | cons u ls ih =>
    simp only [List.map_cons, List.nodup_cons] at hnd
    rcases List.mem_cons.mp ht with rfl | hmem
    · exact List.find?_cons_of_pos _ (by simp)
    · have hne : u.id ≠ t.id := by
        intro he
        exact hnd.1 (he ▸ List.mem_map_of_mem Task.id hmem)
      rw [findTask, List.find?_cons_of_neg _ (by simpa using hne)]
      exact ih hnd.2 hmem

theorem updateTask_map_id {l : List Task} {id : Nat} {f : Task → Task}
    (hf : ∀ t, (f t).id = t.id) :
    (updateTask l id f).map Task.id = l.map Task.id := by
  induction l with
  | nil => rfl
  | cons u ls ih =>
    simp only [updateTask, List.map_cons] at *
    rw [ih]
    have hh : (if u.id = id then f u else u).id = u.id := by
      split <;> simp [hf]
    rw [hh]

theorem findTask_updateTask {l : List Task} {id : Nat} {f : Task → Task}
    (hf : ∀ t, (f t).id = t.id) :
    findTask (updateTask l id f) id = (findTask l id).map f := by
  induction l with
  | nil => rfl
  | cons u ls ih =>
    by_cases h : u.id = id
    · rw [updateTask, List.map_cons, if_pos h, findTask,
        List.find?_cons_of_pos _ (by simp [hf, h]), findTask,
        List.find?_cons_of_pos _ (by simp [h])]
      rfl
    · rw [updateTask, List.map_cons, if_neg h, findTask,
        List.find?_cons_of_neg _ (by simpa using h), findTask,
        List.find?_cons_of_neg _ (by simpa using h)]
      exact ih

theorem findTask_updateTask_ne {l : List Task} {id id' : Nat}
    {f : Task → Task} (hf : ∀ t, (f t).id = t.id) (hne : id' ≠ id) :
    findTask (updateTask l id f) id' = findTask l id' := by
  induction l with
  | nil => rfl
  | cons u ls ih =>
    by_cases h : u.id = id'
    · have h2 : u.id ≠ id := by rw [h]; exact hne
      rw [updateTask, List.map_cons, if_neg h2, findTask,
        List.find?_cons_of_pos _ (by simp [h]), findTask,
        List.find?_cons_of_pos _ (by simp [h])]
    · by_cases h3 : u.id = id
      · rw [updateTask, List.map_cons, if_pos h3, findTask,
          List.find?_cons_of_neg _ (by simp [hf, h3]; exact fun he => hne he.symm),
          findTask, List.find?_cons_of_neg _ (by simpa using h)]
        exact ih
      · rw [updateTask, List.map_cons, if_neg h3, findTask,
          List.find?_cons_of_neg _ (by simpa using h), findTask,
          List.find?_cons_of_neg _ (by simpa using h)]
        exact ih

theorem mem_updateTask {l : List Task} {id : Nat} {f : Task → Task}
    {t : Task} (ht : t ∈ updateTask l id f) :
    ∃ u ∈ l, t = if u.id = id then f u else u := by
  rcases List.mem_map.mp ht with ⟨u, hu, he⟩
  exact ⟨u, hu, he.symm⟩

theorem mem_updateTask_of_mem_ne {l : List Task} {id : Nat} {f : Task → Task}
    {t : Task} (ht : t ∈ l) (hne : t.id ≠ id) : t ∈ updateTask l id f := by
  have : (if t.id = id then f t else t) = t := if_neg hne
  rw [updateTask]
  exact this ▸ List.mem_map_of_mem _ ht

/-! ### Claim theorems about `QueueManager` operations -/

/-- C6: `start()` raises exactly when no processor is set and the queue
is not already running; on that error nothing is mutated (no partial
startup: `_running` stays `False` and no workers are spawned); when
already running it returns without spawning additional workers. -/
theorem start_contract (s : QMState) :
    ((∃ msg, startQM s = .error msg) ↔
      (s.running = false ∧ s.hasProcessor = false)) ∧
    (s.running = false → s.hasProcessor = false →
      startQM s = .error "Un processeur doit être défini avant de démarrer" ∧
      step s .start = s) ∧
    (s.running = true → startQM s = .ok s ∧ step s .start = s) := by
  refine ⟨⟨?_, ?_⟩, ?_, ?_⟩
  · intro ⟨msg, hmsg⟩
    by_cases hr : s.running <;> by_cases hp : s.hasProcessor <;>
      simp [startQM, hr, hp] at hmsg ⊢
  · intro ⟨hr, hp⟩
    simp [startQM, hr, hp]
  · intro hr hp
    constructor
    · simp [startQM, hr, hp]
    · simp [step, startQM, hr, hp, Except.toOption]
  · intro hr
    constructor
    · simp [startQM, hr]
    · simp [step, startQM, hr, Except.toOption]

/-- Witness for C6: a fresh queue has no processor and is not running, so
`start()` raises and mutates nothing. -/
theorem start_contract_witness :
    startQM (QMState.init 2) =
      .error "Un processeur doit être défini avant de démarrer" ∧
    step (QMState.init 2) .start = QMState.init 2 :=
  (start_contract (QMState.init 2)).2.1 rfl rfl

/-- C5: when the processor raises `e` on the task a worker has claimed,
the worker marks the task FAILED, stamps `completed_at`, stores the
stringified exception, increments `total_failed`, decrements
`current_queue_size`, touches no other counter and not the FIFO, and
releases the task to continue with the next one; the transition is total
(the exception is caught in the worker loop, never escaping it). -/
theorem worker_failure_containment (s : QMState) (w id : Nat) (e : String)
    (now : ℚ) (t : Task)
    (hheld : s.held[w]? = some (some id))
    (ht : findTask s.tasks id = some t) :
    findTask (finishOp s w (.error e) now).tasks id =
      some { t with status := .failed, completed_at := some now,
                    error := some e } ∧
    (finishOp s w (.error e) now).total_failed = s.total_failed + 1 ∧
    (finishOp s w (.error e) now).current_queue_size =
      s.current_queue_size - 1 ∧
    (finishOp s w (.error e) now).total_processed = s.total_processed ∧
    (finishOp s w (.error e) now).total_enqueued = s.total_enqueued ∧
    (finishOp s w (.error e) now).held[w]? = some none ∧
    (finishOp s w (.error e) now).fifo = s.fifo ∧
    (finishOp s w (.error e) now).running = s.running := by
  have hw : w < s.held.length := (List.getElem?_eq_some.mp hheld).1
  have hu := @findTask_updateTask s.tasks id (failTask now e) (fun u => rfl)
  simp only [finishOp, hheld]
  refine ⟨?_, by trivial, by trivial, by trivial, by trivial, ?_,
    by trivial, by trivial⟩
  · rw [hu, ht]
    rfl
  · exact List.getElem?_set_eq_of_lt none hw

/-- Witness for C5 at a concrete claimed task. -/
theorem worker_failure_containment_witness :
    findTask (finishOp heldStateW 0 (.error "boom") 3).tasks 0 =
      some ⟨0, "meteo", "p", .failed, 1, some 2, some 3, some "boom", none⟩ ∧
    (finishOp heldStateW 0 (.error "boom") 3).total_failed = 1 :=
  ⟨((worker_failure_containment heldStateW 0 0 "boom" 3
      ⟨0, "meteo", "p", .processing, 1, some 2, none, none, none⟩
      rfl rfl).1),
   ((worker_failure_containment heldStateW 0 0 "boom" 3
      ⟨0, "meteo", "p", .processing, 1, some 2, none, none, none⟩
      rfl rfl).2.1)⟩

/-- C9: `enqueue` returns the fresh task id, appends a new PENDING task
with the given type and payload and no optional field set, pushes the id
onto the FIFO tail, increments `total_enqueued` and `current_queue_size`
by exactly one, and modifies no existing task and no other counter. -/
theorem enqueue_postcondition (s : QMState) (ty data : String) (now : ℚ)
    (hids : ∀ t ∈ s.tasks, t.id < s.nextId) :
    (enqueueOp s ty data now).2 = s.nextId ∧
    (∀ t ∈ s.tasks, t.id ≠ s.nextId) ∧
    (enqueueOp s ty data now).1.tasks =
      s.tasks ++ [⟨s.nextId, ty, data, .pending, now, none, none, none, none⟩] ∧
    findTask (enqueueOp s ty data now).1.tasks s.nextId =
      some ⟨s.nextId, ty, data, .pending, now, none, none, none, none⟩ ∧
    (enqueueOp s ty data now).1.fifo = s.fifo ++ [s.nextId] ∧
    (enqueueOp s ty data now).1.total_enqueued = s.total_enqueued + 1 ∧
    (enqueueOp s ty data now).1.current_queue_size =
      s.current_queue_size + 1 ∧
    (enqueueOp s ty data now).1.total_processed = s.total_processed ∧
    (enqueueOp s ty data now).1.total_failed = s.total_failed := by
  have hfresh : ∀ t ∈ s.tasks, t.id ≠ s.nextId :=
    fun t htm => Nat.ne_of_lt (hids t htm)
  exact ⟨rfl, hfresh, rfl, findTask_append_right hfresh, rfl, rfl, rfl, rfl,
    rfl⟩

/-- Witness for C9 on a fresh queue. -/
theorem enqueue_postcondition_witness :
    (enqueueOp (QMState.init 2) "meteo" "payload" 7).2 = 0 ∧
    (∀ t ∈ (QMState.init 2).tasks, t.id ≠ (QMState.init 2).nextId) ∧
    (enqueueOp (QMState.init 2) "meteo" "payload" 7).1.tasks =
      (QMState.init 2).tasks ++
        [⟨(QMState.init 2).nextId, "meteo", "payload", .pending, 7,
          none, none, none, none⟩] ∧
    findTask (enqueueOp (QMState.init 2) "meteo" "payload" 7).1.tasks
        (QMState.init 2).nextId =
      some ⟨(QMState.init 2).nextId, "meteo", "payload", .pending, 7,
        none, none, none, none⟩ ∧
    (enqueueOp (QMState.init 2) "meteo" "payload" 7).1.fifo =
      (QMState.init 2).fifo ++ [(QMState.init 2).nextId] ∧
    (enqueueOp (QMState.init 2) "meteo" "payload" 7).1.total_enqueued =
      (QMState.init 2).total_enqueued + 1 ∧
    (enqueueOp (QMState.init 2) "meteo" "payload" 7).1.current_queue_size =
      (QMState.init 2).current_queue_size + 1 ∧
    (enqueueOp (QMState.init 2) "meteo" "payload" 7).1.total_processed =
      (QMState.init 2).total_processed ∧
    (enqueueOp (QMState.init 2) "meteo" "payload" 7).1.total_failed =
      (QMState.init 2).total_failed :=
  enqueue_postcondition (QMState.init 2) "meteo" "payload" 7
    (by intro t htm; cases htm)

theorem removable_eq_spec {cutoff : ℚ} {t : Task}
    (h : ∀ c, t.completed_at = some c → 0 < c) :
    removable cutoff t = specRemovable cutoff t := by
  obtain ⟨tid, tty, tdata, tst, tca, tsa, tcoa, ter, tres⟩ := t
  simp only [removable, specRemovable, TaskStatus.isTerminal] at *
  cases tcoa with
  | none => cases tst <;> simp
  | some c =>
    have hpos := h c rfl
    have hne : ¬c = 0 := by positivity
    cases tst <;> simp [hne]

theorem removable_terminal {cutoff : ℚ} {t : Task}
    (h : removable cutoff t = true) : t.status.isTerminal = true := by
  obtain ⟨tid, tty, tdata, tst, tca, tsa, tcoa, ter, tres⟩ := t
  simp only [removable, TaskStatus.isTerminal] at *
  cases tst <;> simp_all

theorem removable_of_terminal {cutoff : ℚ} {t : Task} {c : ℚ}
    (hterm : t.status.isTerminal = true) (hc : t.completed_at = some c)
    (h0 : ¬c = 0) (hlt : c < cutoff) : removable cutoff t = true := by
  obtain ⟨tid, tty, tdata, tst, tca, tsa, tcoa, ter, tres⟩ := t
  simp only [removable, TaskStatus.isTerminal] at *
  subst hc
  cases tst <;> simp_all

/-- C8: `clear_completed(older_than_hours)` at clock `now` removes
exactly the COMPLETED/FAILED tasks whose `completed_at` lies before
`now - older_than_hours * 3600` (given that all recorded timestamps are
positive, as a real clock guarantees), returns the number removed, and
leaves every surviving task, the FIFO, the running flag and all four
counters unchanged; with `older_than_hours = 0` it removes every
terminal task once the clock has advanced past their completion stamps;
on a fresh queue even a huge cutoff removes nothing. -/
theorem clear_completed_frame (s : QMState) (oh now : ℚ) (n : Nat)
    (hpos : ∀ t ∈ s.tasks, ∀ c, t.completed_at = some c → 0 < c) :
    (clearCompletedOp s oh now).1.tasks =
      s.tasks.filter (fun t => !specRemovable (now - oh * 3600) t) ∧
    (clearCompletedOp s oh now).2 =
      (s.tasks.filter (specRemovable (now - oh * 3600))).length ∧
    (clearCompletedOp s oh now).1.total_enqueued = s.total_enqueued ∧
    (clearCompletedOp s oh now).1.total_processed = s.total_processed ∧
    (clearCompletedOp s oh now).1.total_failed = s.total_failed ∧
    (clearCompletedOp s oh now).1.current_queue_size =
      s.current_queue_size ∧
    (clearCompletedOp s oh now).1.fifo = s.fifo ∧
    (clearCompletedOp s oh now).1.running = s.running ∧
    (∀ t ∈ s.tasks, t.status.isTerminal = false →
      t ∈ (clearCompletedOp s oh now).1.tasks) ∧
    ((∀ t ∈ s.tasks, ∀ c, t.completed_at = some c → c < now) →
      (∀ t ∈ s.tasks, t.status.isTerminal = true → t.completed_at ≠ none) →
      (clearCompletedOp s 0 now).1.tasks =
        s.tasks.filter (fun t => !t.status.isTerminal)) ∧
    (clearCompletedOp (QMState.init n) 999999 now).1 = QMState.init n ∧
    (clearCompletedOp (QMState.init n) 999999 now).2 = 0 := by
  have hcong : ∀ t ∈ s.tasks,
      removable (now - oh * 3600) t = specRemovable (now - oh * 3600) t :=
    fun t htm => removable_eq_spec (hpos t htm)
  refine ⟨?_, ?_, rfl, rfl, rfl, rfl, rfl, rfl, ?_, ?_, rfl, rfl⟩
  · exact List.filter_congr (fun t htm => by rw [hcong t htm])
  · simp only [clearCompletedOp]
    rw [List.filter_congr hcong]
  · intro t htm hnt
    simp only [clearCompletedOp]
    rw [List.mem_filter]
    refine ⟨htm, ?_⟩
    rw [Bool.not_eq_eq_eq_not, Bool.not_true]
    by_contra hr
    rw [Bool.not_eq_false] at hr
    rw [removable_terminal hr] at hnt
    cases hnt
  · intro hlt hterm
    apply List.filter_congr
    intro t htm
    have hnow : now - 0 * 3600 = now := by ring
    cases hst : t.status.isTerminal with
    | false =>
      have hrf : removable (now - 0 * 3600) t = false := by
        by_contra hr
        rw [Bool.not_eq_false] at hr
        rw [removable_terminal hr] at hst
        cases hst
      rw [hrf]
    | true =>
      have hcomp := hterm t htm hst
      cases hc : t.completed_at with
      | none => exact absurd hc hcomp
      | some c =>
        have h1 := hpos t htm c hc
        have h2 := hlt t htm c hc
        have hrt : removable (now - 0 * 3600) t = true :=
          removable_of_terminal hst hc (by positivity) (by linarith)
        rw [hrt]

/-- Witness for C8: at `older_than_hours = 0`, the old completed task is
removed (count 1) and the pending task survives untouched. -/
theorem clear_completed_frame_witness :
    (clearCompletedOp clearStateW 0 100).1.tasks =
      clearStateW.tasks.filter (fun t => !specRemovable (100 - 0 * 3600) t) ∧
    (clearCompletedOp clearStateW 0 100).2 =
      (clearStateW.tasks.filter (specRemovable (100 - 0 * 3600))).length := by
  have h := clear_completed_frame clearStateW 0 100 2 ?_
  · exact ⟨h.1, h.2.1⟩
  · intro t htm c hc
    simp only [clearStateW, List.mem_cons, List.not_mem_nil, or_false]
      at htm
    rcases htm with rfl | rfl
    · obtain rfl : (3 : ℚ) = c := Option.some.inj hc
      norm_num
    · exact Option.noConfusion hc

theorem eq_of_mem_of_id_eq {l : List Task} (hnd : (l.map Task.id).Nodup)
    {t u : Task} (ht : t ∈ l) (hu : u ∈ l) (he : t.id = u.id) : t = u := by
  induction l with
  | nil => cases ht
  | cons v ls ih =>
    simp only [List.map_cons, List.nodup_cons] at hnd
    rcases List.mem_cons.mp ht with rfl | htl
    · rcases List.mem_cons.mp hu with rfl | hul
      · rfl
      · exact absurd (he ▸ List.mem_map_of_mem Task.id hul) hnd.1
    · rcases List.mem_cons.mp hu with rfl | hul
      · exact absurd (he ▸ List.mem_map_of_mem Task.id htl) hnd.1
      · exact ih hnd.2 htl hul

theorem mem_updateTask_self {l : List Task} {t : Task} {f : Task → Task}
    {id : Nat} (ht : t ∈ l) (hid : t.id = id) : f t ∈ updateTask l id f := by
  have : (if t.id = id then f t else t) = f t := if_pos hid
  rw [updateTask]
  exact this ▸ List.mem_map_of_mem _ ht

theorem replicate_none_ne_held (n w i : Nat) :
    (List.replicate n (none : Option Nat))[w]? ≠ some (some i) := by
  intro h
  rcases Nat.lt_or_ge w n with hw | hw
  · rw [List.getElem?_eq_getElem (by simpa using hw)] at h
    simp at h
  · rw [List.getElem?_eq_none (by simpa using hw)] at h
    cases h

theorem inv_init (n : Nat) : Inv (QMState.init n) := by
  refine ⟨?_, ?_, ?_, ?_, ?_, ?_, ?_⟩
  · intro t ht; cases ht
  · intro t ht; cases ht
  · exact List.nodup_nil
  · intro i hid; cases hid
  · exact List.nodup_nil
  · intro w i h
    exact absurd h (replicate_none_ne_held n w i)
  · intro w w' i hne h
    exact absurd h (replicate_none_ne_held n w i)

theorem inv_enqueue {s : QMState} (h : Inv s) (ty data : String) (now : ℚ) :
    Inv (enqueueOp s ty data now).1 := by
  obtain ⟨hrec, hlt, hnd, hfp, hfn, hhp, hhn⟩ := h
  have hnew : recordInv ⟨s.nextId, ty, data, .pending, now,
      none, none, none, none⟩ := by
    refine ⟨?_, ?_, ?_, ?_⟩ <;> simp [TaskStatus.isTerminal]
  simp only [enqueueOp]
  refine ⟨?_, ?_, ?_, ?_, ?_, ?_, ?_⟩
  · intro t ht
    rcases List.mem_append.mp ht with htl | htr
    · exact hrec t htl
    · rw [List.mem_singleton.mp htr]
      exact hnew
  · intro t ht
    rcases List.mem_append.mp ht with htl | htr
    · exact Nat.lt_succ_of_lt (hlt t htl)
    · rw [List.mem_singleton.mp htr]
      exact Nat.lt_succ_self _
  · rw [List.map_append]
    rw [List.nodup_append]
    refine ⟨hnd, List.nodup_singleton _, ?_⟩
    intro x hx
    rcases List.mem_map.mp hx with ⟨t, htm, rfl⟩
    simp only [List.map_cons, List.map_nil, List.mem_singleton]
    exact Nat.ne_of_lt (hlt t htm)
  · intro id hid
    rcases List.mem_append.mp hid with hl | hr
    · obtain ⟨t, htm, hti, hts⟩ := hfp id hl
      exact ⟨t, List.mem_append_left _ htm, hti, hts⟩
    · rw [List.mem_singleton.mp hr]
      exact ⟨_, List.mem_append_right _ (List.mem_singleton_self _), rfl, rfl⟩
  · rw [List.nodup_append]
    refine ⟨hfn, List.nodup_singleton _, ?_⟩
    intro x hx
    obtain ⟨t, htm, hti, _⟩ := hfp x hx
    simp only [List.map_cons, List.map_nil, List.mem_singleton]
    exact fun he => absurd (hti ▸ he ▸ hlt t htm) (Nat.lt_irrefl _)
  · intro w id hw
    obtain ⟨t, htm, hti, hts⟩ := hhp w id hw
    exact ⟨t, List.mem_append_left _ htm, hti, hts⟩
  · exact hhn

theorem recordInv_claim {t : Task} (h : recordInv t)
    (hs : t.status = .pending) (now : ℚ) :
    recordInv { t with status := .processing, started_at := some now } := by
  obtain ⟨h1, h2, h3, h4⟩ := h
  have herr : t.error = none := by
    by_contra hne
    have := h1.mp hne
    rw [hs] at this
    cases this
  have hres : t.result = none := by
    by_contra hne
    have := h2 hne
    rw [hs] at this
    cases this
  have hcomp : t.completed_at = none := by
    by_contra hne
    have := h4.mp hne
    rw [hs] at this
    cases this
  refine ⟨?_, ?_, ?_, ?_⟩ <;>
    simp [herr, hres, hcomp, TaskStatus.isTerminal]

theorem recordInv_complete {t : Task} (h : recordInv t)
    (hs : t.status = .processing) (now : ℚ) (r : Option String) :
    recordInv { t with status := .completed, completed_at := some now,
                       result := r } := by
  obtain ⟨h1, h2, h3, h4⟩ := h
  have herr : t.error = none := by
    by_contra hne
    have := h1.mp hne
    rw [hs] at this
    cases this
  have hstart : t.started_at ≠ none := h3.mpr (by rw [hs]; intro hx; cases hx)
  refine ⟨?_, ?_, ?_, ?_⟩ <;>
    simp [herr, hstart, TaskStatus.isTerminal]

theorem recordInv_fail {t : Task} (h : recordInv t)
    (hs : t.status = .processing) (now : ℚ) (e : String) :
    recordInv { t with status := .failed, completed_at := some now,
                       error := some e } := by
  obtain ⟨h1, h2, h3, h4⟩ := h
  have hres : t.result = none := by
    by_contra hne
    have := h2 hne
    rw [hs] at this
    cases this
  have hstart : t.started_at ≠ none := h3.mpr (by rw [hs]; intro hx; cases hx)
  refine ⟨?_, ?_, ?_, ?_⟩ <;>
    simp [hres, hstart, TaskStatus.isTerminal]

theorem inv_claim {s : QMState} (h : Inv s) (w : Nat) (now : ℚ) :
    Inv (claimOp s w now) := by
  obtain ⟨hrec, hlt, hnd, hfp, hfn, hhp, hhn⟩ := h
  by_cases hg : s.running = true ∧ s.held[w]? = some none
  case neg =>
    rw [claimOp, if_neg hg]
    exact ⟨hrec, hlt, hnd, hfp, hfn, hhp, hhn⟩
  obtain ⟨hrun, hwn⟩ := hg
  have hw : w < s.held.length := (List.getElem?_eq_some.mp hwn).1
  cases hfq : s.fifo with
  | nil =>
    rw [claimOp, if_pos ⟨hrun, hwn⟩, hfq]
    exact ⟨hrec, hlt, hnd, hfp, hfn, hhp, hhn⟩
  | cons i0 rest =>
    have hi0 := hfp i0 (by rw [hfq]; exact List.mem_cons_self i0 rest)
    obtain ⟨p, hpm, hpi, hps⟩ := hi0
    have hrestp : ∀ i ∈ rest, ∃ t ∈ s.tasks, t.id = i ∧ t.status = .pending :=
      fun i hi => hfp i (by rw [hfq]; exact List.mem_cons_of_mem _ hi)
    have hrestnd : rest.Nodup := by
      rw [hfq] at hfn
      exact hfn.of_cons
    have hi0rest : i0 ∉ rest := by
      rw [hfq] at hfn
      exact (List.nodup_cons.mp hfn).1
    cases hft : findTask s.tasks i0 with
    | none =>
      rw [claimOp, if_pos ⟨hrun, hwn⟩, hfq]
      simp only [hft]
      exact ⟨hrec, hlt, hnd, hrestp, hrestnd, hhp, hhn⟩
    | some u =>
      rw [claimOp, if_pos ⟨hrun, hwn⟩, hfq]
      simp only [hft]
      refine ⟨?_, ?_, ?_, ?_, hrestnd, ?_, ?_⟩
      · intro t' ht'
        rcases mem_updateTask ht' with ⟨u', hum, ht'eq⟩
        by_cases hcase : u'.id = i0
        · rw [if_pos hcase] at ht'eq
          have hup : u' = p :=
            eq_of_mem_of_id_eq hnd hum hpm (by rw [hcase, hpi])

          subst ht'eq
          exact recordInv_claim (hrec u' hum) (by rw [hup]; exact hps) now
        · rw [if_neg hcase] at ht'eq
          rw [ht'eq]
          exact hrec u' hum
      · intro t' ht'
        rcases mem_updateTask ht' with ⟨u', hum, ht'eq⟩
        by_cases hcase : u'.id = i0
        · rw [if_pos hcase] at ht'eq
          rw [ht'eq]
          exact hlt u' hum
        · rw [if_neg hcase] at ht'eq
          rw [ht'eq]
          exact hlt u' hum
      · have hmap := @updateTask_map_id s.tasks i0 (claimTask now)
          (fun t => rfl)
        rw [hmap]
        exact hnd
      · intro i1 hi1
        obtain ⟨q, hqm, hqi, hqs⟩ := hrestp i1 hi1
        have hne : q.id ≠ i0 := by
          rw [hqi]
          intro he
          exact hi0rest (he ▸ hi1)
        exact ⟨q, mem_updateTask_of_mem_ne hqm hne, hqi, hqs⟩
      · intro w' i1 hw'
        by_cases hww : w' = w
        · subst hww
          rw [List.getElem?_set_eq_of_lt (some i0) hw] at hw'
          have hii : i0 = i1 := by
            injection hw' with hx
            injection hx
          refine ⟨claimTask now p, mem_updateTask_self hpm hpi, ?_, rfl⟩
          simpa [claimTask] using hpi.trans hii
        · rw [List.getElem?_set_ne (fun he => hww he.symm)] at hw'
          obtain ⟨q, hqm, hqi, hqs⟩ := hhp w' i1 hw'
          have hne : q.id ≠ i0 := by
            intro he
            have hqp : q = p :=
              eq_of_mem_of_id_eq hnd hqm hpm (he.trans hpi.symm)
            rw [hqp, hps] at hqs
            cases hqs
          exact ⟨q, mem_updateTask_of_mem_ne hqm hne, hqi, hqs⟩
      · intro w1 w2 i1 hne12 h1
        by_cases hw2 : w2 = w
        · subst hw2
          rw [List.getElem?_set_eq_of_lt (some i0) hw]
          intro h2
          have hii : i0 = i1 := by
            injection h2 with hx
            injection hx
          rw [List.getElem?_set_ne (fun he => hne12 he.symm)] at h1
          obtain ⟨q, hqm, hqi, hqs⟩ := hhp w1 i1 h1
          have hqp : q = p :=
            eq_of_mem_of_id_eq hnd hqm hpm
              (hqi.trans (hii.symm.trans hpi.symm))
          rw [hqp, hps] at hqs
          cases hqs
        · rw [List.getElem?_set_ne (fun he => hw2 he.symm)]
          by_cases hw1 : w1 = w
          · subst hw1
            rw [List.getElem?_set_eq_of_lt (some i0) hw] at h1
            have hii : i0 = i1 := by
              injection h1 with hx
              injection hx
            intro h2
            obtain ⟨q, hqm, hqi, hqs⟩ := hhp w2 i1 h2
            have hqp : q = p :=
              eq_of_mem_of_id_eq hnd hqm hpm
                (hqi.trans (hii.symm.trans hpi.symm))
            rw [hqp, hps] at hqs
            cases hqs
          · rw [List.getElem?_set_ne (fun he => hw1 he.symm)] at h1
            exact hhn w1 w2 i1 hne12 h1

theorem inv_finish_core {s : QMState} (h : Inv s) {w i0 : Nat}
    (hwv : s.held[w]? = some (some i0)) (g : Task → Task)
    (hgid : ∀ t, (g t).id = t.id)
    (hgrec : ∀ t, recordInv t → t.status = .processing → recordInv (g t))
    (te tp tf cq : Int) :
    Inv { s with
            tasks := updateTask s.tasks i0 g,
            held := s.held.set w none,
            total_enqueued := te,
            total_processed := tp,
            total_failed := tf,
            current_queue_size := cq } := by
  obtain ⟨hrec, hlt, hnd, hfp, hfn, hhp, hhn⟩ := h
  obtain ⟨p, hpm, hpi, hps⟩ := hhp w i0 hwv
  have hw : w < s.held.length := (List.getElem?_eq_some.mp hwv).1
  refine ⟨?_, ?_, ?_, ?_, hfn, ?_, ?_⟩
  · intro t' ht'
    rcases mem_updateTask ht' with ⟨u', hum, ht'eq⟩
    by_cases hcase : u'.id = i0
    · rw [if_pos hcase] at ht'eq
      rw [ht'eq]
      have hup : u' = p :=
        eq_of_mem_of_id_eq hnd hum hpm (by rw [hcase, hpi])
      exact hgrec u' (hrec u' hum) (by rw [hup]; exact hps)
    · rw [if_neg hcase] at ht'eq
      rw [ht'eq]
      exact hrec u' hum
  · intro t' ht'
    rcases mem_updateTask ht' with ⟨u', hum, ht'eq⟩
    by_cases hcase : u'.id = i0
    · rw [if_pos hcase] at ht'eq
      rw [ht'eq, hgid u']
      exact hlt u' hum
    · rw [if_neg hcase] at ht'eq
      rw [ht'eq]
      exact hlt u' hum
  · rw [updateTask_map_id hgid]
    exact hnd
  · intro i1 hi1
    obtain ⟨q, hqm, hqi, hqs⟩ := hfp i1 hi1
    have hne : q.id ≠ i0 := by
      intro he
      have hqp : q = p := eq_of_mem_of_id_eq hnd hqm hpm (he.trans hpi.symm)
      rw [hqp, hps] at hqs
      cases hqs
    exact ⟨q, mem_updateTask_of_mem_ne hqm hne, hqi, hqs⟩
  · intro w' i1 hw'
    by_cases hww : w' = w
    · subst hww
      rw [List.getElem?_set_eq_of_lt none hw] at hw'
      injection hw' with hx
      exact Option.noConfusion hx
    · rw [List.getElem?_set_ne (fun he => hww he.symm)] at hw'
      obtain ⟨q, hqm, hqi, hqs⟩ := hhp w' i1 hw'
      have hne : q.id ≠ i0 := by
        intro he
        have hii : i1 = i0 := hqi.symm.trans he
        rw [hii] at hw'
        exact hhn w' w i0 hww hw' hwv
      exact ⟨q, mem_updateTask_of_mem_ne hqm hne, hqi, hqs⟩
  · intro w1 w2 i1 hne12 h1
    by_cases hw2 : w2 = w
    · subst hw2
      rw [List.getElem?_set_eq_of_lt none hw]
      intro h2
      injection h2 with hx
      exact Option.noConfusion hx
    · rw [List.getElem?_set_ne (fun he => hw2 he.symm)]
      by_cases hw1 : w1 = w
      · subst hw1
        rw [List.getElem?_set_eq_of_lt none hw] at h1
        injection h1 with hx
        exact Option.noConfusion hx
      · rw [List.getElem?_set_ne (fun he => hw1 he.symm)] at h1
        exact hhn w1 w2 i1 hne12 h1

theorem inv_finish {s : QMState} (h : Inv s) (w : Nat)
    (outcome : Except String (Option String)) (now : ℚ) :
    Inv (finishOp s w outcome now) := by
  cases hwv : s.held[w]? with
  | none =>
    have heq : finishOp s w outcome now = s := by
      rw [finishOp.eq_def, hwv]
    rw [heq]
    exact h
  | some o =>
    cases o with
    | none =>
      have heq : finishOp s w outcome now = s := by
        rw [finishOp.eq_def, hwv]
      rw [heq]
      exact h
    | some i0 =>
      cases outcome with
      | ok r =>
        have heq : finishOp s w (.ok r) now =
            { s with
                tasks := updateTask s.tasks i0 (completeTask now r),
                held := s.held.set w none,
                total_enqueued := s.total_enqueued,
                total_processed := s.total_processed + 1,
                total_failed := s.total_failed,
                current_queue_size := s.current_queue_size - 1 } := by
          rw [finishOp.eq_def, hwv]
        rw [heq]
        exact inv_finish_core h hwv (completeTask now r) (fun t => rfl)
          (fun t hr hs => recordInv_complete hr hs now r) _ _ _ _
      | error e =>
        have heq : finishOp s w (.error e) now =
            { s with
                tasks := updateTask s.tasks i0 (failTask now e),
                held := s.held.set w none,
                total_enqueued := s.total_enqueued,
                total_processed := s.total_processed,
                total_failed := s.total_failed + 1,
                current_queue_size := s.current_queue_size - 1 } := by
          rw [finishOp.eq_def, hwv]
        rw [heq]
        exact inv_finish_core h hwv (failTask now e) (fun t => rfl)
          (fun t hr hs => recordInv_fail hr hs now e) _ _ _ _

theorem inv_clear {s : QMState} (h : Inv s) (oh now : ℚ) :
    Inv (clearCompletedOp s oh now).1 := by
  obtain ⟨hrec, hlt, hnd, hfp, hfn, hhp, hhn⟩ := h
  simp only [clearCompletedOp]
  refine ⟨?_, ?_, ?_, ?_, hfn, ?_, ?_⟩
  · intro t ht
    exact hrec t (List.mem_of_mem_filter ht)
  · intro t ht
    exact hlt t (List.mem_of_mem_filter ht)
  · exact ((List.filter_sublist _).map Task.id).nodup hnd
  · intro i1 hi1
    obtain ⟨q, hqm, hqi, hqs⟩ := hfp i1 hi1
    refine ⟨q, List.mem_filter.mpr ⟨hqm, ?_⟩, hqi, hqs⟩
    have hrm : removable (now - oh * 3600) q = false := by
      by_contra hr
      rw [Bool.not_eq_false] at hr
      have := removable_terminal hr
      rw [hqs] at this
      simp [TaskStatus.isTerminal] at this
    simp [hrm]
  · intro w' i1 hw'
    obtain ⟨q, hqm, hqi, hqs⟩ := hhp w' i1 hw'
    refine ⟨q, List.mem_filter.mpr ⟨hqm, ?_⟩, hqi, hqs⟩
    have hrm : removable (now - oh * 3600) q = false := by
      by_contra hr
      rw [Bool.not_eq_false] at hr
      have := removable_terminal hr
      rw [hqs] at this
      simp [TaskStatus.isTerminal] at this
    simp [hrm]
  · exact hhn

theorem inv_step {s : QMState} (h : Inv s) (op : QOp) : Inv (step s op) := by
  cases op with
  | enqueue ty d now => exact inv_enqueue h ty d now
  | claim w now => exact inv_claim h w now
  | finish w o now => exact inv_finish h w o now
  | clearCompleted oh now => exact inv_clear h oh now
  | setProcessor =>
    obtain ⟨hrec, hlt, hnd, hfp, hfn, hhp, hhn⟩ := h
    exact ⟨hrec, hlt, hnd, hfp, hfn, hhp, hhn⟩
  | start =>
    simp only [step]
    by_cases hr : s.running
    · rw [startQM, if_pos hr]
      exact h
    · by_cases hp : s.hasProcessor
      · rw [startQM, if_neg hr, if_neg (by simp [hp])]
        obtain ⟨hrec, hlt, hnd, hfp, hfn, hhp, hhn⟩ := h
        exact ⟨hrec, hlt, hnd, hfp, hfn, hhp, hhn⟩
      · rw [startQM, if_neg hr, if_pos (by simp [hp])]
        exact h
  | stop =>
    simp only [step, stopQM]
    by_cases hr : s.running
    · rw [if_pos hr]
      obtain ⟨hrec, hlt, hnd, hfp, hfn, hhp, hhn⟩ := h
      exact ⟨hrec, hlt, hnd, hfp, hfn, hhp, hhn⟩
    · rw [if_neg hr]
      exact h

theorem inv_foldl (l : List QOp) : ∀ s, Inv s → Inv (l.foldl step s) := by
  induction l with
  | nil => intro s h; exact h
  | cons op rest ih =>
    intro s h
    exact ih _ (inv_step h op)

theorem inv_run (n : Nat) (ops : List QOp) : Inv (run n ops) :=
  inv_foldl ops _ (inv_init n)

/-! ### Terminal tasks are never mutated -/

theorem claimOp_terminal_frame {s : QMState} (hInv : Inv s) {t : Task}
    (htm : t ∈ s.tasks) (hterm : t.status.isTerminal = true) (w : Nat)
    (now : ℚ) : findTask (claimOp s w now).tasks t.id = some t := by
  obtain ⟨hrec, hlt, hnd, hfp, hfn, hhp, hhn⟩ := hInv
  have hfind : findTask s.tasks t.id = some t := findTask_of_mem_nodup hnd htm
  by_cases hg : s.running = true ∧ s.held[w]? = some none
  case neg =>
    rw [claimOp, if_neg hg]
    exact hfind
  obtain ⟨hrun, hwn⟩ := hg
  cases hfq : s.fifo with
  | nil =>
    rw [claimOp, if_pos ⟨hrun, hwn⟩, hfq]
    exact hfind
  | cons i0 rest =>
    obtain ⟨p, hpm, hpi, hps⟩ :=
      hfp i0 (by rw [hfq]; exact List.mem_cons_self i0 rest)
    cases hft : findTask s.tasks i0 with
    | none =>
      rw [claimOp, if_pos ⟨hrun, hwn⟩, hfq]
      simp only [hft]
      exact hfind
    | some u =>
      rw [claimOp, if_pos ⟨hrun, hwn⟩, hfq]
      simp only [hft]
      have hne : t.id ≠ i0 := by
        intro he
        have htp : t = p := eq_of_mem_of_id_eq hnd htm hpm (he.trans hpi.symm)
        rw [htp, hps] at hterm
        simp [TaskStatus.isTerminal] at hterm
      rw [findTask_updateTask_ne (f := claimTask now) (fun u' => rfl) hne]
      exact hfind

theorem finishOp_terminal_frame {s : QMState} (hInv : Inv s) {t : Task}
    (htm : t ∈ s.tasks) (hterm : t.status.isTerminal = true) (w : Nat)
    (outcome : Except String (Option String)) (now : ℚ) :
    findTask (finishOp s w outcome now).tasks t.id = some t := by
  obtain ⟨hrec, hlt, hnd, hfp, hfn, hhp, hhn⟩ := hInv
  have hfind : findTask s.tasks t.id = some t := findTask_of_mem_nodup hnd htm
  cases hwv : s.held[w]? with
  | none =>
    have heq : finishOp s w outcome now = s := by rw [finishOp.eq_def, hwv]
    rw [heq]
    exact hfind
  | some o =>
    cases o with
    | none =>
      have heq : finishOp s w outcome now = s := by rw [finishOp.eq_def, hwv]
      rw [heq]
      exact hfind
    | some i0 =>
      obtain ⟨p, hpm, hpi, hps⟩ := hhp w i0 hwv
      have hne : t.id ≠ i0 := by
        intro he
        have htp : t = p := eq_of_mem_of_id_eq hnd htm hpm (he.trans hpi.symm)
        rw [htp, hps] at hterm
        simp [TaskStatus.isTerminal] at hterm
      cases outcome with
      | ok r =>
        have heq : finishOp s w (.ok r) now =
            { s with
                tasks := updateTask s.tasks i0 (completeTask now r),
                held := s.held.set w none,
                total_enqueued := s.total_enqueued,
                total_processed := s.total_processed + 1,
                total_failed := s.total_failed,
                current_queue_size := s.current_queue_size - 1 } := by
          rw [finishOp.eq_def, hwv]
        rw [heq]
        show findTask (updateTask s.tasks i0 (completeTask now r)) t.id =
          some t
        rw [findTask_updateTask_ne (f := completeTask now r)
          (fun u' => rfl) hne]
        exact hfind
      | error e =>
        have heq : finishOp s w (.error e) now =
            { s with
                tasks := updateTask s.tasks i0 (failTask now e),
                held := s.held.set w none,
                total_enqueued := s.total_enqueued,
                total_processed := s.total_processed,
                total_failed := s.total_failed + 1,
                current_queue_size := s.current_queue_size - 1 } := by
          rw [finishOp.eq_def, hwv]
        rw [heq]
        show findTask (updateTask s.tasks i0 (failTask now e)) t.id = some t
        rw [findTask_updateTask_ne (f := failTask now e) (fun u' => rfl) hne]
        exact hfind

theorem clearOp_find_cases {s : QMState} (hInv : Inv s) {t : Task}
    (htm : t ∈ s.tasks) (oh now : ℚ) :
    findTask (clearCompletedOp s oh now).1.tasks t.id = some t ∨
    findTask (clearCompletedOp s oh now).1.tasks t.id = none := by
  obtain ⟨hrec, hlt, hnd, hfp, hfn, hhp, hhn⟩ := hInv
  simp only [clearCompletedOp]
  cases hrm : removable (now - oh * 3600) t with
  | false =>
    left
    have htf : t ∈ s.tasks.filter
        (fun u => !removable (now - oh * 3600) u) :=
      List.mem_filter.mpr ⟨htm, by rw [hrm]; rfl⟩
    exact findTask_of_mem_nodup
      (((List.filter_sublist _).map Task.id).nodup hnd) htf
  | true =>
    right
    apply findTask_eq_none
    intro u hu he
    have hum : u ∈ s.tasks := List.mem_of_mem_filter hu
    have hut : u = t := eq_of_mem_of_id_eq hnd hum htm he
    have := (List.mem_filter.mp hu).2
    rw [hut, hrm] at this
    cases this

theorem step_start_tasks (s : QMState) : (step s .start).tasks = s.tasks := by
  simp only [step]
  by_cases hr : s.running
  · rw [startQM, if_pos hr]
    rfl
  · by_cases hp : s.hasProcessor
    · rw [startQM, if_neg hr, if_neg (by simp [hp])]
      rfl
    · rw [startQM, if_neg hr, if_pos (by simp [hp])]
      rfl

theorem step_stop_tasks (s : QMState) : (step s .stop).tasks = s.tasks := by
  simp only [step, stopQM]
  by_cases hr : s.running
  · rw [if_pos hr]
  · rw [if_neg hr]

/-- C7: in every reachable state of a `QueueManager`, every registered
task satisfies the record invariant (`error` present iff FAILED, `result`
present only when COMPLETED, `started_at` present iff the task has left
PENDING, `completed_at` present iff terminal); and a task that is
COMPLETED or FAILED is never mutated by any further operation — every
operation either leaves its record exactly as it is, or, only in the case
of `clear_completed`, removes it from the registry. -/
theorem task_record_invariant (n : Nat) (ops : List QOp) :
    (∀ t ∈ (run n ops).tasks, recordInv t) ∧
    (∀ (op : QOp) (t : Task), t ∈ (run n ops).tasks →
      t.status.isTerminal = true →
      findTask (step (run n ops) op).tasks t.id = some t ∨
      ∃ oh now2, op = QOp.clearCompleted oh now2 ∧
        findTask (step (run n ops) op).tasks t.id = none) := by
  have hInv := inv_run n ops
  refine ⟨hInv.taskRec, ?_⟩
  intro op t htm hterm
  have hfind : findTask (run n ops).tasks t.id = some t :=
    findTask_of_mem_nodup hInv.idsNodup htm
  cases op with
  | enqueue ty d now =>
    left
    exact findTask_append_left _ hfind
  | claim w now =>
    left
    exact claimOp_terminal_frame hInv htm hterm w now
  | finish w o now =>
    left
    exact finishOp_terminal_frame hInv htm hterm w o now
  | clearCompleted oh now =>
    rcases clearOp_find_cases hInv htm oh now with hc | hc
    · left
      exact hc
    · right
      exact ⟨oh, now, rfl, hc⟩
  | setProcessor =>
    left
    exact hfind
  | start =>
    left
    rw [step_start_tasks]
    exact hfind
  | stop =>
    left
    rw [step_stop_tasks]
    exact hfind

/-- Witness for C7: after the concrete run, the failed task satisfies the
record invariant and survives a further `stop` unchanged. -/
theorem task_record_invariant_witness :
    recordInv ⟨0, "meteo", "p", .failed, 1, some 2, some 3, some "boom",
      none⟩ ∧
    findTask (step (run 1 opsW) .stop).tasks 0 =
      some ⟨0, "meteo", "p", .failed, 1, some 2, some 3, some "boom",
        none⟩ := by
  have h := task_record_invariant 1 opsW
  constructor
  · exact h.1 _ (by decide)
  · have h2 := h.2 .stop
      ⟨0, "meteo", "p", .failed, 1, some 2, some 3, some "boom", none⟩
      (by decide) (by decide)
    rcases h2 with h2 | ⟨oh, now2, heq, _⟩
    · exact h2
    · cases heq

end QueueManager
